import Mathlib

/-!
Verification of the bigram map-reduce pipeline in `src/map_reduce_bigrams.py`.

The script builds a four-stage pipeline over a list of text lines:
1. `extract_bigrams` tokenizes each line (`re.findall` of one-or-more word
   characters over the lower-cased line) and yields one record
   `{bigram: "w1 w2", count: 1}` per adjacent token pair;
2. `groupby("bigram").aggregate(Sum("count"))` sums the counts per bigram;
3. `groupby("count").aggregate(make_list_aggregator("bigram", "bigrams"))`
   collects, per count value, the list of bigrams having that count;
4. a final `map` projects each group to `{count, num_bigrams}`.

Lines are modelled as lists of characters, rows as structures, and the
grouped aggregations by their sequential reference semantics (one output row
per distinct key, each group reduced with the aggregator functions).
-/

/-- A word character in the sense of the regex class `\w` on ASCII text:
alphanumeric or underscore. -/
def isWordChar (c : Char) : Bool := c.isAlphanum || c == '_'

/-- Embedding of `re.findall(r"\w+", s)`: the maximal runs of word characters
of `s`, in left-to-right order. A word character adjacent to the following
run joins it; a word character followed by a non-word character (or the end)
closes its run. -/
def findall : List Char → List (List Char)
  | [] => []
  | [c] => if isWordChar c then [[c]] else []
  | c :: d :: cs =>
    if isWordChar c then
      if isWordChar d then
        match findall (d :: cs) with
        | [] => [[c]]
        | t :: ts => (c :: t) :: ts
      else [c] :: findall cs
    else findall (d :: cs)

/-- The token list of a line: `re.findall(r"\w+", line.lower())` from
`extract_bigrams` in `src/map_reduce_bigrams.py` (line 51). -/
def tokenize (line : List Char) : List (List Char) :=
  findall (line.map Char.toLower)

/-- The non-word gaps around the runs found by `findall`: gap before the
first run, gaps between consecutive runs, gap after the last run. -/
def findGaps : List Char → List (List Char)
  | [] => [[]]
  | [c] => if isWordChar c then [[], []] else [[c]]
  | c :: d :: cs =>
    if isWordChar c then
      if isWordChar d then findGaps (d :: cs)
      else [] :: findGaps (d :: cs)
    else
      match findGaps (d :: cs) with
      | [] => [[c]]
      | g :: gs => (c :: g) :: gs

/-- Interleaving of gaps and runs: `g0 ++ t0 ++ g1 ++ t1 ++ ... ++ gn`. -/
def interleave : List (List Char) → List (List Char) → List Char
  | g :: gs, t :: ts => g ++ t ++ interleave gs ts
  | gs, [] => gs.flatten
  | [], _ => []

/-- A record yielded by `extract_bigrams`: `{"bigram": "w1 w2", "count": 1}`. -/
structure BigramRecord where
  bigram : List Char
  count : Nat
deriving DecidableEq, Repr

/-- Embedding of `extract_bigrams` (lines 40-56): for `i` in
`range(len(tokens) - 1)` yield `{bigram: tokens[i] + " " + tokens[i+1],
count: 1}`. -/
def extract_bigrams (line : List Char) : List BigramRecord :=
  (List.range ((tokenize line).length - 1)).map
    (fun i =>
      { bigram := (tokenize line).getD i [] ++ (' ' :: (tokenize line).getD (i + 1) [])
        count := 1 })

/-- An aggregator in the sense of `ray.data.aggregate.AggregateFn`, as
constructed in `make_list_aggregator`: a seed per group key, a per-row
accumulate, a merge of two partial accumulators, an output key name and a
finalizer. -/
structure AggregateFn (κ Row β γ : Type) where
  init : κ → β
  merge : β → β → β
  name : String
  accumulate_row : β → Row → β
  finalize : β → γ

/-- Embedding of `make_list_aggregator` (lines 15-37). Python rows are
dictionaries and `row[input_key]` selects a field; that field selection is
modelled by the projection function `input_key`. -/
def make_list_aggregator {κ Row α : Type} (input_key : Row → α)
    (output_key : String) : AggregateFn κ Row (List α) (List α) where
  init := fun _key => []
  merge := fun accum1 accum2 => accum1 ++ accum2
  name := output_key
  accumulate_row := fun acc row => acc ++ [input_key row]
  finalize := fun acc => acc

/-- Modelled from the spec: the built-in `Sum("count", alias_name="count")`
aggregator from `ray.data._internal.aggregate` used at the
`groupby("bigram")` step is library code outside this repository; per
section 4.2 of the spec it sums the `count` field across the members of each
group. -/
def sumCount (κ : Type) : AggregateFn κ BigramRecord Nat Nat where
  init := fun _key => 0
  merge := fun a b => a + b
  name := "count"
  accumulate_row := fun acc row => acc + row.count
  finalize := fun acc => acc

/-- Modelled from the spec: `Dataset.groupby(key).aggregate(agg)` of Ray Data
is library code outside this repository; per sections 4.2, 4.3 and 5 of the
spec it groups rows by the key and reduces each group with the aggregator,
and its sequential reference semantics produces one output row per distinct
key (output order unspecified; here, order of last occurrence of each key). -/
def groupByAggregate {κ Row β γ : Type} [DecidableEq κ]
    (key : Row → κ) (agg : AggregateFn κ Row β γ) (rows : List Row) :
    List (κ × γ) :=
  ((rows.map key).dedup).map
    (fun k =>
      (k, agg.finalize ((rows.filter (fun r => decide (key r = k))).foldl
            agg.accumulate_row (agg.init k))))

/-- A row of the counted stage: `{"bigram": ..., "count": total}`. -/
structure CountedBigram where
  bigram : List Char
  count : Nat
deriving DecidableEq, Repr

/-- A row of the final output: `{"count": ..., "num_bigrams": ...}`. -/
structure HistogramEntry where
  count : Nat
  num_bigrams : Nat
deriving DecidableEq, Repr

/-- The flat-map stage of `main` (line 77): all records extracted from the
corpus, line by line. -/
def extractedRecords (corpus : List (List Char)) : List BigramRecord :=
  corpus.flatMap extract_bigrams

/-- The `groupby("bigram").aggregate(Sum("count", alias_name="count"))` stage
of `main` (line 82). -/
def countStage (records : List BigramRecord) : List CountedBigram :=
  (groupByAggregate (fun r => r.bigram) (sumCount (List Char)) records).map
    (fun p => { bigram := p.1, count := p.2 })

/-- The collecting aggregator instance used by the histogram stage:
`make_list_aggregator(input_key="bigram", output_key="bigrams")` applied to
counted-bigram rows grouped by their count. -/
def bigramsCollector :
    AggregateFn Nat CountedBigram (List (List Char)) (List (List Char)) :=
  make_list_aggregator (fun c => c.bigram) "bigrams"

/-- The `groupby("count").aggregate(make_list_aggregator("bigram",
"bigrams"))` stage of `main` (line 87). -/
def histogramStage (cs : List CountedBigram) : List (Nat × List (List Char)) :=
  groupByAggregate (fun c => c.count) bigramsCollector cs

/-- The final `map` stage of `main` (lines 91-96). -/
def projectEntry (g : Nat × List (List Char)) : HistogramEntry :=
  { count := g.1, num_bigrams := g.2.length }

/-- The whole dataset pipeline of `main` (lines 74-97) on an arbitrary
corpus of lines. -/
def pipeline (corpus : List (List Char)) : List HistogramEntry :=
  (histogramStage (countStage (extractedRecords corpus))).map projectEntry

/-- Skipping a non-word character does not change the runs. -/
theorem findall_cons_of_not_word {d : Char} (cs : List Char)
    (h : isWordChar d = false) : findall (d :: cs) = findall cs := by
  cases cs with
  | nil => simp [findall, h]
  | cons e cs => simp [findall, h]

/-- A run starting at a word character contains that character first. -/
theorem findall_cons_of_word :
    ∀ (cs : List Char) (c : Char), isWordChar c = true →
      ∃ t ts, findall (c :: cs) = (c :: t) :: ts := by
  intro cs
  induction cs with
  | nil =>
    intro c h
    exact ⟨[], [], by simp [findall, h]⟩
  | cons d cs ih =>
    intro c h
    cases hd : isWordChar d with
    | true =>
      obtain ⟨t, ts, ht⟩ := ih d hd
      exact ⟨d :: t, ts, by simp [findall, h, hd, ht]⟩
    | false =>
      exact ⟨[], findall cs, by simp [findall, h, hd]⟩

/-- There is always at least one gap. -/
theorem findGaps_ne_nil : ∀ (l : List Char), findGaps l ≠ [] := by
  intro l
  induction l with
  | nil => simp [findGaps]
  | cons c cs ih =>
    cases cs with
    | nil => cases h : isWordChar c <;> simp [findGaps, h]
    | cons d cs =>
      cases hc : isWordChar c with
      | true =>
        cases hd : isWordChar d with
        | true => simpa [findGaps, hc, hd] using ih
        | false => simp [findGaps, hc, hd]
      | false =>
        obtain ⟨g, gs, hg⟩ := List.exists_cons_of_ne_nil ih
        simp [findGaps, hc, hg]

/-- Before a run that starts at the head of the input there is an empty gap. -/
theorem findGaps_head_of_word :
    ∀ (cs : List Char) (c : Char), isWordChar c = true →
      ∃ gs, findGaps (c :: cs) = [] :: gs := by
  intro cs
  induction cs with
  | nil =>
    intro c h
    exact ⟨[[]], by simp [findGaps, h]⟩
  | cons d cs ih =>
    intro c h
    cases hd : isWordChar d with
    | true =>
      obtain ⟨gs, hgs⟩ := ih d hd
      exact ⟨gs, by simp [findGaps, h, hd, hgs]⟩
    | false =>
      exact ⟨findGaps (d :: cs), by simp [findGaps, h, hd]⟩

/-- A character prepended to the first gap is prepended to the interleaving. -/
theorem interleave_cons_gap (c : Char) (g : List Char) (gs ts : List (List Char)) :
    interleave ((c :: g) :: gs) ts = c :: interleave (g :: gs) ts := by
  cases ts with
  | nil => simp [interleave]
  | cons t ts => simp [interleave]

/-- The gaps and runs of a string interleave back to the string itself. -/
theorem interleave_findGaps_findall :
    ∀ (l : List Char), interleave (findGaps l) (findall l) = l := by
  intro l
  induction l with
  | nil => simp [findGaps, findall, interleave]
  | cons c cs ih =>
    cases cs with
    | nil => cases h : isWordChar c <;> simp [findGaps, findall, interleave, h]
    | cons d cs =>
      cases hc : isWordChar c with
      | true =>
        cases hd : isWordChar d with
        | true =>
          obtain ⟨t, ts, ht⟩ := findall_cons_of_word cs d hd
          obtain ⟨gs, hg⟩ := findGaps_head_of_word cs d hd
          rw [ht, hg] at ih
          simp only [interleave, List.nil_append, List.cons_append,
            List.cons.injEq, true_and] at ih
          simp only [findall, findGaps, hc, hd, if_true, ht, hg, interleave,
            List.nil_append, List.cons_append, List.cons.injEq, true_and]
          exact ih
        | false =>
          have he : findall (d :: cs) = findall cs :=
            findall_cons_of_not_word cs hd
          rw [he] at ih
          simp only [findall, findGaps, hc, hd, if_true, if_false, interleave,
            List.nil_append, List.cons_append, List.singleton_append,
            List.cons.injEq, Bool.false_eq_true, true_and]
          exact ih
      | false =>
        obtain ⟨g, gs, hg⟩ := List.exists_cons_of_ne_nil (findGaps_ne_nil (d :: cs))
        have hf : findall (c :: d :: cs) = findall (d :: cs) := by
          simp [findall, hc]
        have hG : findGaps (c :: d :: cs) = (c :: g) :: gs := by
          simp [findGaps, hc, hg]
        rw [hf, hG, interleave_cons_gap, ← hg, ih]

/-- Every run found by `findall` is nonempty and made of word characters. -/
theorem findall_tokens :
    ∀ (l : List Char), ∀ t ∈ findall l, t ≠ [] ∧ ∀ c ∈ t, isWordChar c = true := by
  intro l
  induction l with
  | nil => simp [findall]
  | cons c cs ih =>
    cases cs with
    | nil =>
      cases h : isWordChar c with
      | true => simp [findall, h]
      | false => simp [findall, h]
    | cons d cs =>
      cases hc : isWordChar c with
      | true =>
        cases hd : isWordChar d with
        | true =>
          obtain ⟨t, ts, ht⟩ := findall_cons_of_word cs d hd
          rw [ht] at ih
          intro u hu
          simp only [findall, hc, hd, if_true, ht, List.mem_cons] at hu
          rcases hu with hu | hu
          · subst hu
            refine ⟨by simp, ?_⟩
            intro x hx
            rw [List.mem_cons] at hx
            rcases hx with hx | hx
            · exact hx ▸ hc
            · exact (ih (d :: t) (by simp)).2 x hx
          · exact ih u (by simp [hu])
        | false =>
          have he : findall (d :: cs) = findall cs :=
            findall_cons_of_not_word cs hd
          rw [he] at ih
          intro u hu
          simp only [findall, hc, hd, if_true, Bool.false_eq_true, if_false,
            List.mem_cons] at hu
          rcases hu with hu | hu
          · subst hu
            exact ⟨by simp, by intro x hx; simp at hx; exact hx ▸ hc⟩
          · exact ih u hu
      | false =>
        have hf : findall (c :: d :: cs) = findall (d :: cs) := by
          simp [findall, hc]
        rw [hf]
        exact ih

/-- Every gap consists of non-word characters only. -/
theorem findGaps_not_word :
    ∀ (l : List Char), ∀ g ∈ findGaps l, ∀ c ∈ g, isWordChar c = false := by
  intro l
  induction l with
  | nil => simp [findGaps]
  | cons c cs ih =>
    cases cs with
    | nil =>
      cases h : isWordChar c with
      | true => simp [findGaps, h]
      | false => simp [findGaps, h]
    | cons d cs =>
      cases hc : isWordChar c with
      | true =>
        cases hd : isWordChar d with
        | true =>
          simpa [findGaps, hc, hd] using ih
        | false =>
          intro g hg
          simp only [findGaps, hc, hd, if_true, Bool.false_eq_true, if_false,
            List.mem_cons] at hg
          rcases hg with hg | hg
          · subst hg; simp
          · exact ih g hg
      | false =>
        obtain ⟨g0, gs, hg0⟩ := List.exists_cons_of_ne_nil (findGaps_ne_nil (d :: cs))
        rw [hg0] at ih
        intro g hg
        simp only [findGaps, hc, Bool.false_eq_true, if_false, hg0,
          List.mem_cons] at hg
        rcases hg with hg | hg
        · subst hg
          intro x hx
          rw [List.mem_cons] at hx
          rcases hx with hx | hx
          · exact hx ▸ hc
          · exact ih g0 (by simp) x hx
        · exact ih g (by simp [hg])

/-- There is exactly one more gap than there are runs. -/
theorem findGaps_length :
    ∀ (l : List Char), (findGaps l).length = (findall l).length + 1 := by
  intro l
  induction l with
  | nil => simp [findGaps, findall]
  | cons c cs ih =>
    cases cs with
    | nil =>
      cases h : isWordChar c with
      | true => simp [findGaps, findall, h]
      | false => simp [findGaps, findall, h]
    | cons d cs =>
      cases hc : isWordChar c with
      | true =>
        cases hd : isWordChar d with
        | true =>
          obtain ⟨t, ts, ht⟩ := findall_cons_of_word cs d hd
          rw [ht] at ih
          simp only [findall, findGaps, hc, hd, if_true, ht]
          simpa using ih
        | false =>
          have he : findall (d :: cs) = findall cs :=
            findall_cons_of_not_word cs hd
          rw [he] at ih
          simp only [findall, findGaps, hc, hd, if_true, Bool.false_eq_true,
            if_false]
          simpa using ih
      | false =>
        obtain ⟨g0, gs, hg0⟩ := List.exists_cons_of_ne_nil (findGaps_ne_nil (d :: cs))
        have hf : findall (c :: d :: cs) = findall (d :: cs) := by
          simp [findall, hc]
        rw [hf]
        simp only [findGaps, hc, Bool.false_eq_true, if_false, hg0]
        rw [hg0] at ih
        simpa using ih

/-- Maximality of the runs: every gap strictly between two runs is nonempty
(so no run could be extended), and when the input starts with a non-word
character every gap except the final one is nonempty. -/
theorem findGaps_interior_ne_nil :
    ∀ (l : List Char),
      (∀ g ∈ ((findGaps l).drop 1).dropLast, g ≠ []) ∧
      (∀ c cs, l = c :: cs → isWordChar c = false →
        ∀ g ∈ (findGaps l).dropLast, g ≠ []) := by
  intro l
  induction l with
  | nil =>
    refine ⟨by simp [findGaps], ?_⟩
    intro c cs h
    exact absurd h (by simp)
  | cons c cs ih =>
    cases cs with
    | nil =>
      cases h : isWordChar c with
      | true =>
        refine ⟨by simp [findGaps, h], ?_⟩
        intro e es he hw
        rw [List.cons.injEq] at he
        rw [← he.1] at hw
        exact absurd hw (by simp [h])
      | false =>
        exact ⟨by simp [findGaps, h], by intro e es he hw; simp [findGaps, h]⟩
    | cons d cs =>
      cases hc : isWordChar c with
      | true =>
        cases hd : isWordChar d with
        | true =>
          have hG : findGaps (c :: d :: cs) = findGaps (d :: cs) := by
            simp [findGaps, hc, hd]
          refine ⟨by rw [hG]; exact ih.1, ?_⟩
          intro e es he hw
          rw [List.cons.injEq] at he
          rw [← he.1] at hw
          exact absurd hw (by simp [hc])
        | false =>
          have hG : findGaps (c :: d :: cs) = [] :: findGaps (d :: cs) := by
            simp [findGaps, hc, hd]
          constructor
          · rw [hG]
            simp only [List.drop_succ_cons, List.drop_zero]
            exact ih.2 d cs rfl hd
          · intro e es he hw
            rw [List.cons.injEq] at he
            rw [← he.1] at hw
            exact absurd hw (by simp [hc])
      | false =>
        obtain ⟨g0, gs, hg0⟩ := List.exists_cons_of_ne_nil (findGaps_ne_nil (d :: cs))
        have hG : findGaps (c :: d :: cs) = (c :: g0) :: gs := by
          simp [findGaps, hc, hg0]
        have ihA : ∀ g ∈ gs.dropLast, g ≠ [] := by
          have := ih.1
          rw [hg0] at this
          simpa using this
        constructor
        · rw [hG]
          simpa using ihA
        · intro e es he hw
          rw [hG]
          cases gs with
          | nil => simp
          | cons g1 gs1 =>
            intro g hg
            rw [List.dropLast_cons₂, List.mem_cons] at hg
            rcases hg with hg | hg
            · subst hg; simp
            · exact ihA g (by simpa using hg)

/-- Packing a small code point into a character keeps its value. -/
theorem char_toNat_ofNat {n : Nat} (h : n < 55296) :
    (Char.ofNat n).toNat = n := by
  rw [Char.ofNat, dif_pos (Or.inl h)]
  rfl

/-- Lowering a character twice is the same as lowering it once (so Python's
`str.lower()` is idempotent on the modelled characters). -/
theorem toLower_toLower (c : Char) : c.toLower.toLower = c.toLower := by
  unfold Char.toLower
  by_cases h : c.toNat ≥ 65 ∧ c.toNat ≤ 90
  · rw [if_pos h]
    have hv : (Char.ofNat (c.toNat + 32)).toNat = c.toNat + 32 :=
      char_toNat_ofNat (by omega)
    rw [hv, if_neg (by omega)]
  · rw [if_neg h, if_neg h]

/-- Lowering an already-lowered line changes nothing. -/
theorem map_toLower_idem (l : List Char) :
    (l.map Char.toLower).map Char.toLower = l.map Char.toLower := by
  rw [List.map_map]
  exact List.map_congr_left (fun c _ => toLower_toLower c)

/-- Tokenization is case-insensitive: a line and its lower-cased form have
the same tokens. -/
theorem tokenize_map_toLower (line : List Char) :
    tokenize (line.map Char.toLower) = tokenize line := by
  unfold tokenize
  rw [map_toLower_idem]

/-- Every record yielded by `extract_bigrams` carries count 1. -/
theorem extract_bigrams_count_one (line : List Char) :
    ∀ r ∈ extract_bigrams line, r.count = 1 := by
  intro r hr
  unfold extract_bigrams at hr
  obtain ⟨i, _, hi⟩ := List.mem_map.mp hr
  rw [← hi]

/-- `extract_bigrams` yields one record per adjacent token pair. -/
theorem extract_bigrams_length (line : List Char) :
    (extract_bigrams line).length = (tokenize line).length - 1 := by
  unfold extract_bigrams
  rw [List.length_map, List.length_range]

/-- Folding the list-collecting accumulate appends the projected fields. -/
theorem foldl_collect {Row α : Type} (f : Row → α) :
    ∀ (rows : List Row) (acc : List α),
      rows.foldl (fun a r => a ++ [f r]) acc = acc ++ rows.map f := by
  intro rows
  induction rows with
  | nil => simp
  | cons r rows ih =>
    intro acc
    simp [List.foldl_cons, ih]

/-- Folding the summing accumulate adds up the counts. -/
theorem foldl_sum_count :
    ∀ (rows : List BigramRecord) (n : Nat),
      rows.foldl (fun acc r => acc + r.count) n =
        n + (rows.map (fun r => r.count)).sum := by
  intro rows
  induction rows with
  | nil => simp
  | cons r rows ih =>
    intro n
    simp [List.foldl_cons, ih, Nat.add_assoc]

/-- A list of ones sums to the length of the list. -/
theorem sum_map_one {α : Type} (l : List α) :
    (l.map (fun _ => (1 : Nat))).sum = l.length := by
  induction l with
  | nil => rfl
  | cons a l ih => simp [ih, Nat.add_comm]

/-- Partitioning rows by their key: the group sizes over the distinct keys
sum to the number of rows. -/
theorem sum_group_sizes {Row κ : Type} [DecidableEq κ] (key : Row → κ)
    (rows : List Row) :
    (((rows.map key).dedup).map
        (fun k => (rows.filter (fun r => decide (key r = k))).length)).sum
      = rows.length := by
  have h := List.sum_map_count_dedup_eq_length (rows.map key)
  rw [List.length_map] at h
  rw [← h]
  apply congrArg
  apply List.map_congr_left
  intro k hk
  rw [List.count, List.countP_map, ← List.countP_eq_length_filter]
  rfl

/-- Closed form of the count stage: one entry per distinct bigram string, in
dedup order, whose count is the sum of the counts of the matching records. -/
theorem countStage_eq (records : List BigramRecord) :
    countStage records =
      ((records.map (fun r => r.bigram)).dedup).map
        (fun b =>
          { bigram := b
            count := ((records.filter (fun r => decide (r.bigram = b))).map
                (fun r => r.count)).sum }) := by
  unfold countStage groupByAggregate sumCount
  rw [List.map_map]
  apply List.map_congr_left
  intro b hb
  simp [foldl_sum_count]

/-- Closed form of the whole pipeline: one entry per distinct count value of
the counted stage, whose `num_bigrams` is the size of the matching group. -/
theorem pipeline_eq (corpus : List (List Char)) :
    pipeline corpus =
      (((countStage (extractedRecords corpus)).map (fun c => c.count)).dedup).map
        (fun k =>
          { count := k
            num_bigrams := ((countStage (extractedRecords corpus)).filter
                (fun c => decide (c.count = k))).length }) := by
  unfold pipeline histogramStage groupByAggregate bigramsCollector make_list_aggregator projectEntry
  rw [List.map_map]
  apply List.map_congr_left
  intro k hk
  simp [foldl_collect]

/-- C4: the collecting aggregator used by the histogram stage satisfies the
four-function contract: its seed is an empty list for every group key, its
per-row accumulate appends the input-key field (the bigram string) of the
row to the running list, its merge is list concatenation, and its finalize
is the identity. -/
theorem bigramsCollector_contract :
    (∀ k : Nat, bigramsCollector.init k = [])
    ∧ (∀ (acc : List (List Char)) (row : CountedBigram),
        bigramsCollector.accumulate_row acc row = acc ++ [row.bigram])
    ∧ (∀ acc1 acc2 : List (List Char),
        bigramsCollector.merge acc1 acc2 = acc1 ++ acc2)
    ∧ (∀ acc : List (List Char), bigramsCollector.finalize acc = acc) :=
  ⟨fun _ => rfl, fun _ _ => rfl, fun _ _ => rfl, fun _ => rfl⟩

/-- C6 counterexample: the merge of the collecting aggregator is list
concatenation, which is not commutative, so the claim that the merge
operations of the pipeline aggregators are commutative fails at two
singleton partial lists. -/
theorem bigramsCollector_merge_not_commutative :
    bigramsCollector.merge [[' ']] [['a']] ≠
      bigramsCollector.merge [['a']] [[' ']] := by decide

/-- C6 amended: every merge of the pipeline aggregators is associative, the
sum merge is also commutative, and the collecting merge is commutative up to
permutation of the collected list, so the group sets and the length
observable `num_bigrams` are unaffected by merge order. -/
theorem merges_associative_sum_commutative_concat_perm :
    (∀ a b c : Nat, (sumCount (List Char)).merge ((sumCount (List Char)).merge a b) c
        = (sumCount (List Char)).merge a ((sumCount (List Char)).merge b c))
    ∧ (∀ a b : Nat, (sumCount (List Char)).merge a b = (sumCount (List Char)).merge b a)
    ∧ (∀ a b c : List (List Char),
        bigramsCollector.merge (bigramsCollector.merge a b) c
          = bigramsCollector.merge a (bigramsCollector.merge b c))
    ∧ (∀ a b : List (List Char),
        (bigramsCollector.merge a b).Perm (bigramsCollector.merge b a))
    ∧ (∀ a b : List (List Char),
        (bigramsCollector.merge a b).length = (bigramsCollector.merge b a).length) :=
  ⟨fun a b c => Nat.add_assoc a b c,
   fun a b => Nat.add_comm a b,
   fun a b c => List.append_assoc a b c,
   fun a b => List.perm_append_comm,
   fun a b => by simp [bigramsCollector, make_list_aggregator, Nat.add_comm]⟩

/-- C8: the empty corpus flows through every stage and produces the empty
output collection; in this total model no error can be raised. -/
theorem pipeline_empty : pipeline [] = [] := rfl

/-- All records produced by the flat-map stage carry count 1. -/
theorem extractedRecords_count_one (corpus : List (List Char)) :
    ∀ r ∈ extractedRecords corpus, r.count = 1 := by
  intro r hr
  unfold extractedRecords at hr
  rw [List.mem_flatMap] at hr
  obtain ⟨line, _, hline⟩ := hr
  exact extract_bigrams_count_one line r hline

/-- Because every record carries count 1, the counts of a bigram group sum
to the size of the group. -/
theorem filter_counts_sum_eq_length (corpus : List (List Char)) (b : List Char) :
    (((extractedRecords corpus).filter (fun r => decide (r.bigram = b))).map
        (fun r => r.count)).sum =
      ((extractedRecords corpus).filter (fun r => decide (r.bigram = b))).length := by
  rw [← sum_map_one ((extractedRecords corpus).filter (fun r => decide (r.bigram = b)))]
  apply congrArg
  apply List.map_congr_left
  intro r hr
  exact extractedRecords_count_one corpus r (List.mem_of_mem_filter hr)

/-- C1 counterexample: on the single-line corpus "a b a b" the sum of
`num_bigrams * count` over the output is 3, while only 2 distinct bigram
strings occur. -/
theorem sum_weighted_counts_ne_distinct_bigrams :
    ((pipeline [("a b a b".data)]).map (fun e => e.num_bigrams * e.count)).sum ≠
      (((extractedRecords [("a b a b".data)]).map (fun r => r.bigram)).dedup).length := by
  decide

/-- C1 amended: the sum of `num_bigrams` (without the `count` factor) over
the final output equals the number of distinct bigram strings observed in
the corpus. -/
theorem sum_num_bigrams_eq_distinct_bigrams (corpus : List (List Char)) :
    ((pipeline corpus).map (fun e => e.num_bigrams)).sum =
      (((extractedRecords corpus).map (fun r => r.bigram)).dedup).length := by
  have h := sum_group_sizes (fun c : CountedBigram => c.count)
      (countStage (extractedRecords corpus))
  have h2 : (countStage (extractedRecords corpus)).length =
      (((extractedRecords corpus).map (fun r => r.bigram)).dedup).length := by
    rw [countStage_eq, List.length_map]
  rw [pipeline_eq, List.map_map, ← h2, ← h]
  rfl

/-- C5: the counts of the counted stage sum to the total number of adjacent
token pairs across all lines of the corpus. -/
theorem sum_counts_eq_adjacent_pairs (corpus : List (List Char)) :
    ((countStage (extractedRecords corpus)).map (fun c => c.count)).sum =
      (corpus.map (fun line => (tokenize line).length - 1)).sum := by
  rw [countStage_eq, List.map_map]
  have hcongr : (((extractedRecords corpus).map (fun r => r.bigram)).dedup).map
        ((fun c : CountedBigram => c.count) ∘
          (fun b =>
            ({ bigram := b
               count := (((extractedRecords corpus).filter
                   (fun r => decide (r.bigram = b))).map
                   (fun r => r.count)).sum } : CountedBigram)))
      = (((extractedRecords corpus).map (fun r => r.bigram)).dedup).map
        (fun b => ((extractedRecords corpus).filter
            (fun r => decide (r.bigram = b))).length) :=
    List.map_congr_left (fun b _ => filter_counts_sum_eq_length corpus b)
  rw [hcongr, sum_group_sizes]
  unfold extractedRecords
  rw [List.length_flatMap]
  apply congrArg
  apply List.map_congr_left
  intro line _
  exact extract_bigrams_length line

/-- C3: the count stage has pairwise-distinct bigram keys, its keys are
exactly the bigram strings of the extracted records, and each count is the
number of occurrences of that bigram among the extracted records. -/
theorem countStage_spec (corpus : List (List Char)) :
    ((countStage (extractedRecords corpus)).map (fun c => c.bigram)).Nodup
    ∧ (∀ b : List Char,
        (b ∈ (countStage (extractedRecords corpus)).map (fun c => c.bigram)) ↔
          b ∈ (extractedRecords corpus).map (fun r => r.bigram))
    ∧ (∀ e ∈ countStage (extractedRecords corpus),
        e.count = ((extractedRecords corpus).filter
            (fun r => decide (r.bigram = e.bigram))).length) := by
  refine ⟨?_, ?_, ?_⟩
  · rw [countStage_eq, List.map_map]
    show ((((extractedRecords corpus).map (fun r => r.bigram)).dedup).map
      (fun b : List Char => b)).Nodup
    rw [List.map_id']
    exact List.nodup_dedup ((extractedRecords corpus).map (fun r => r.bigram))
  · intro b
    rw [countStage_eq, List.map_map]
    show (b ∈ (((extractedRecords corpus).map (fun r => r.bigram)).dedup).map
      (fun x : List Char => x)) ↔ _
    rw [List.map_id']
    exact List.mem_dedup
  · intro e he
    rw [countStage_eq] at he
    obtain ⟨b, hb, hbe⟩ := List.mem_map.mp he
    rw [← hbe]
    simpa using filter_counts_sum_eq_length corpus b

/-- Witness for C3 at the corpus ["a b a b"]: the bigram "a b" occurs
twice. -/
theorem countStage_spec_witness :
    (({ bigram := ('a' :: (' ' :: ['b'])), count := 2 } : CountedBigram) ∈
        countStage (extractedRecords [("a b a b".data)])) ∧
      ({ bigram := ('a' :: (' ' :: ['b'])), count := 2 } : CountedBigram).count =
        ((extractedRecords [("a b a b".data)]).filter
          (fun r => decide (r.bigram =
            ({ bigram := ('a' :: (' ' :: ['b'])), count := 2 } : CountedBigram).bigram))).length :=
  ⟨by decide, (countStage_spec [("a b a b".data)]).2.2 _ (by decide)⟩

/-- Every count in the counted stage is at least 1. -/
theorem countStage_count_pos (corpus : List (List Char)) :
    ∀ c ∈ countStage (extractedRecords corpus), 1 ≤ c.count := by
  intro c hc
  rw [countStage_eq] at hc
  obtain ⟨b, hb, hbc⟩ := List.mem_map.mp hc
  rw [List.mem_dedup] at hb
  obtain ⟨r, hr, hrb⟩ := List.mem_map.mp hb
  have hrf : r ∈ (extractedRecords corpus).filter (fun x => decide (x.bigram = b)) :=
    List.mem_filter.mpr ⟨hr, by simp [hrb]⟩
  have h1 : r.count ∈ ((extractedRecords corpus).filter
      (fun x => decide (x.bigram = b))).map (fun x => x.count) :=
    List.mem_map_of_mem (fun x => x.count) hrf
  have hle := List.single_le_sum (fun x _ => Nat.zero_le x) _ h1
  rw [extractedRecords_count_one corpus r hr] at hle
  rw [← hbc]
  exact hle

/-- C10: every final record has a count of at least 1 and a nonempty
histogram group, so `num_bigrams` is at least 1 as well. -/
theorem pipeline_entries_positive (corpus : List (List Char))
    (e : HistogramEntry) (he : e ∈ pipeline corpus) :
    1 ≤ e.count ∧ 1 ≤ e.num_bigrams := by
  rw [pipeline_eq] at he
  obtain ⟨k, hk, hke⟩ := List.mem_map.mp he
  rw [List.mem_dedup] at hk
  obtain ⟨c, hc, hck⟩ := List.mem_map.mp hk
  refine ⟨?_, ?_⟩
  · rw [← hke]
    show 1 ≤ k
    rw [← hck]
    exact countStage_count_pos corpus c hc
  · rw [← hke]
    show 1 ≤ ((countStage (extractedRecords corpus)).filter
        (fun x => decide (x.count = k))).length
    have hcf : c ∈ (countStage (extractedRecords corpus)).filter
        (fun x => decide (x.count = k)) :=
      List.mem_filter.mpr ⟨hc, by simp [hck]⟩
    exact List.length_pos.mpr (List.ne_nil_of_mem hcf)

/-- Witness for C10 at the corpus ["a b a b"]. -/
theorem pipeline_entries_positive_witness :
    (({ count := 2, num_bigrams := 1 } : HistogramEntry) ∈
        pipeline [("a b a b".data)]) ∧
      (1 ≤ ({ count := 2, num_bigrams := 1 } : HistogramEntry).count ∧
        1 ≤ ({ count := 2, num_bigrams := 1 } : HistogramEntry).num_bigrams) :=
  ⟨by decide, pipeline_entries_positive [("a b a b".data)]
    { count := 2, num_bigrams := 1 } (by decide)⟩

/-- The counted stage is stable, as a multiset, under permutation of the
extracted records. -/
theorem countStage_perm {r1 r2 : List BigramRecord} (h : r1.Perm r2) :
    (countStage r1).Perm (countStage r2) := by
  rw [countStage_eq, countStage_eq]
  have hfun : ∀ b : List Char,
      ({ bigram := b
         count := ((r1.filter (fun r => decide (r.bigram = b))).map
             (fun r => r.count)).sum } : CountedBigram) =
      ({ bigram := b
         count := ((r2.filter (fun r => decide (r.bigram = b))).map
             (fun r => r.count)).sum } : CountedBigram) := by
    intro b
    have := (((h.filter (fun r => decide (r.bigram = b)))).map
        (fun r => r.count)).sum_eq
    rw [this]
  rw [List.map_congr_left (fun b _ => hfun b)]
  exact ((h.map (fun r => r.bigram)).dedup).map _

/-- C7: the pipeline is deterministic up to output order: permuting the
corpus (and in particular running it twice on the same corpus) yields the
same multiset of output records. -/
theorem pipeline_deterministic {c1 c2 : List (List Char)} (h : c1.Perm c2) :
    (pipeline c1).Perm (pipeline c2) := by
  have hrec : (extractedRecords c1).Perm (extractedRecords c2) :=
    List.Perm.flatMap_right extract_bigrams h
  have hcs := countStage_perm hrec
  rw [pipeline_eq, pipeline_eq]
  have hfun : ∀ k : Nat,
      ({ count := k
         num_bigrams := ((countStage (extractedRecords c1)).filter
             (fun c => decide (c.count = k))).length } : HistogramEntry) =
      ({ count := k
         num_bigrams := ((countStage (extractedRecords c2)).filter
             (fun c => decide (c.count = k))).length } : HistogramEntry) := by
    intro k
    have := (hcs.filter (fun c => decide (c.count = k))).length_eq
    rw [this]
  rw [List.map_congr_left (fun k _ => hfun k)]
  exact ((hcs.map (fun c => c.count)).dedup).map _

/-- Witness for C7: two concrete corpora that are permutations of each other
produce permuted outputs. -/
theorem pipeline_deterministic_witness :
    ([("a b".data), ("c d c".data)] : List (List Char)).Perm
        [("c d c".data), ("a b".data)] ∧
      (pipeline [("a b".data), ("c d c".data)]).Perm
        (pipeline [("c d c".data), ("a b".data)]) :=
  ⟨by decide, pipeline_deterministic (by decide)⟩

/-- An in-bounds `getD` produces a member of the list. -/
theorem getD_mem_of_lt {α : Type} (l : List α) (i : Nat) (d : α)
    (h : i < l.length) : l.getD i d ∈ l := by
  rw [List.getD_eq_getElem?_getD, List.getElem?_eq_getElem h]
  simp

/-- C2: tokenization yields the maximal runs of word characters of the
lower-cased line (nonempty all-word runs, separated by all-non-word gaps
that are nonempty strictly between runs, interleaving back to the
lower-cased line); the extractor yields exactly one record with count 1 per
adjacent token pair, in left-to-right order; a line with fewer than 2
tokens yields nothing; and tokenization is case-insensitive, with
"THE CAT" and "the cat" producing the same single bigram string
"the cat". -/
theorem extract_bigrams_spec (line : List Char) :
    (∀ t ∈ tokenize line, t ≠ [] ∧ ∀ c ∈ t, isWordChar c = true)
    ∧ interleave (findGaps (line.map Char.toLower)) (tokenize line)
        = line.map Char.toLower
    ∧ (∀ g ∈ findGaps (line.map Char.toLower), ∀ c ∈ g, isWordChar c = false)
    ∧ (∀ g ∈ ((findGaps (line.map Char.toLower)).drop 1).dropLast, g ≠ [])
    ∧ (findGaps (line.map Char.toLower)).length = (tokenize line).length + 1
    ∧ (extract_bigrams line).length = (tokenize line).length - 1
    ∧ (∀ i, i + 1 < (tokenize line).length →
        (extract_bigrams line).getD i { bigram := [], count := 0 } =
          { bigram := (tokenize line).getD i [] ++
              (' ' :: (tokenize line).getD (i + 1) [])
            count := 1 })
    ∧ ((tokenize line).length < 2 → extract_bigrams line = [])
    ∧ extract_bigrams (line.map Char.toLower) = extract_bigrams line
    ∧ (extract_bigrams ("THE CAT".data) = extract_bigrams ("the cat".data)
        ∧ (extract_bigrams ("THE CAT".data)).map (fun r => r.bigram)
            = [("the cat".data)]) := by
  refine ⟨findall_tokens (line.map Char.toLower),
    interleave_findGaps_findall (line.map Char.toLower),
    findGaps_not_word (line.map Char.toLower),
    (findGaps_interior_ne_nil (line.map Char.toLower)).1,
    findGaps_length (line.map Char.toLower),
    extract_bigrams_length line, ?_, ?_, ?_, by decide, by decide⟩
  · intro i hi
    unfold extract_bigrams
    rw [List.getD_eq_getElem?_getD, List.getElem?_map,
      List.getElem?_range (show i < (tokenize line).length - 1 by omega)]
    rfl
  · intro hlen
    unfold extract_bigrams
    rw [show (tokenize line).length - 1 = 0 by omega]
    rfl
  · unfold extract_bigrams
    rw [tokenize_map_toLower]

/-- Witness for C2 at the line "a b": the record at index 0 is built from
the tokens at positions 0 and 1. -/
theorem extract_bigrams_spec_witness :
    0 + 1 < (tokenize ("a b".data)).length ∧
      (extract_bigrams ("a b".data)).getD 0 { bigram := [], count := 0 } =
        { bigram := (tokenize ("a b".data)).getD 0 [] ++
            (' ' :: (tokenize ("a b".data)).getD (0 + 1) [])
          count := 1 } :=
  ⟨by decide, (extract_bigrams_spec ("a b".data)).2.2.2.2.2.2.1 0 (by decide)⟩

/-- Splitting a list at a separator character absent from the left part is
unique. -/
theorem append_sep_unique :
    ∀ (t1 s1 t2 s2 : List Char), (' ' : Char) ∉ t1 → (' ' : Char) ∉ s1 →
      t1 ++ (' ' :: t2) = s1 ++ (' ' :: s2) → t1 = s1 ∧ t2 = s2 := by
  intro t1
  induction t1 with
  | nil =>
    intro s1 t2 s2 h1 h2 heq
    cases s1 with
    | nil => simpa using heq
    | cons d s1 =>
      rw [List.nil_append, List.cons_append, List.cons.injEq] at heq
      have hmem : (' ' : Char) ∈ d :: s1 := by
        rw [heq.1]
        exact List.mem_cons_self d s1
      exact absurd hmem h2
  | cons c t1 ih =>
    intro s1 t2 s2 h1 h2 heq
    cases s1 with
    | nil =>
      rw [List.cons_append, List.nil_append, List.cons.injEq] at heq
      have hmem : (' ' : Char) ∈ c :: t1 := by
        rw [← heq.1]
        exact List.mem_cons_self c t1
      exact absurd hmem h1
    | cons d s1 =>
      rw [List.cons_append, List.cons_append, List.cons.injEq] at heq
      have h1a : (' ' : Char) ∉ t1 := fun hx => h1 (List.mem_cons_of_mem c hx)
      have h2a : (' ' : Char) ∉ s1 := fun hx => h2 (List.mem_cons_of_mem d hx)
      obtain ⟨ha, hb⟩ := ih s1 t2 s2 h1a h2a heq.2
      exact ⟨by rw [heq.1, ha], hb⟩

/-- C9: every bigram string the extractor emits is two nonempty all-word
tokens joined by a single space; the space is not a word character, and the
decomposition at the space is unique among space-free left parts, so the
bigram string determines its ordered token pair and grouping by it never
conflates distinct pairs. -/
theorem bigram_decomposition_unique (line : List Char) (r : BigramRecord)
    (hr : r ∈ extract_bigrams line) :
    ∃ t1 t2 : List Char,
      t1 ≠ [] ∧ t2 ≠ [] ∧
      (∀ c ∈ t1, isWordChar c = true) ∧ (∀ c ∈ t2, isWordChar c = true) ∧
      isWordChar ' ' = false ∧
      r.bigram = t1 ++ (' ' :: t2) ∧
      (∀ s1 s2 : List Char, (' ' : Char) ∉ s1 →
        r.bigram = s1 ++ (' ' :: s2) → s1 = t1 ∧ s2 = t2) := by
  unfold extract_bigrams at hr
  obtain ⟨i, hi, hir⟩ := List.mem_map.mp hr
  rw [List.mem_range] at hi
  have hi1 : i < (tokenize line).length := by omega
  have hi2 : i + 1 < (tokenize line).length := by omega
  have hm1 : (tokenize line).getD i [] ∈ tokenize line :=
    getD_mem_of_lt (tokenize line) i [] hi1
  have hm2 : (tokenize line).getD (i + 1) [] ∈ tokenize line :=
    getD_mem_of_lt (tokenize line) (i + 1) [] hi2
  obtain ⟨hne1, hw1⟩ := findall_tokens (line.map Char.toLower) _ hm1
  obtain ⟨hne2, hw2⟩ := findall_tokens (line.map Char.toLower) _ hm2
  refine ⟨(tokenize line).getD i [], (tokenize line).getD (i + 1) [],
    hne1, hne2, hw1, hw2, by decide, ?_, ?_⟩
  · rw [← hir]
  · intro s1 s2 hs1 heq
    have hnosp : (' ' : Char) ∉ (tokenize line).getD i [] := by
      intro hmem
      have hbad := hw1 ' ' hmem
      exact absurd hbad (by decide)
    rw [← hir] at heq
    obtain ⟨ha, hb⟩ := append_sep_unique ((tokenize line).getD i [])
      s1 ((tokenize line).getD (i + 1) []) s2 hnosp hs1 heq
    exact ⟨ha.symm, hb.symm⟩

/-- Witness for C9 at the line "a b". -/
theorem bigram_decomposition_unique_witness :
    (({ bigram := ('a' :: (' ' :: ['b'])), count := 1 } : BigramRecord) ∈
        extract_bigrams ("a b".data)) ∧
      ∃ t1 t2 : List Char,
        t1 ≠ [] ∧ t2 ≠ [] ∧
        (∀ c ∈ t1, isWordChar c = true) ∧ (∀ c ∈ t2, isWordChar c = true) ∧
        isWordChar ' ' = false ∧
        ({ bigram := ('a' :: (' ' :: ['b'])), count := 1 } : BigramRecord).bigram
          = t1 ++ (' ' :: t2) ∧
        (∀ s1 s2 : List Char, (' ' : Char) ∉ s1 →
          ({ bigram := ('a' :: (' ' :: ['b'])), count := 1 } : BigramRecord).bigram
            = s1 ++ (' ' :: s2) → s1 = t1 ∧ s2 = t2) :=
  ⟨by decide, bigram_decomposition_unique ("a b".data) _ (by decide)⟩
